import Mathlib

/-!
Verification of the `tree` utility (`src/tree.py`).

The program renders a directory tree, filtering entries through a
gitignore-style ignore-rule matcher loaded from `.treeignore`.

Embedding notes:
* The filesystem is modelled by `Entry`: a file, or a directory with a
  `readable` flag (`os.listdir` raising `PermissionError` when false) and a
  list of `(name, entry)` children.
* `print_tree` / `renderItems` translate `print_tree` of `tree.py`
  (lines 38-94); printed lines are collected into a `List String`.
  `colorama` is initialized with `autoreset=True`, so every printed line
  ends with the reset sequence.
* The pattern matcher is the `pathspec` library (`gitwildmatch`), which is
  not part of this repository's sources; `parseLine`, `from_lines`,
  `ruleMatch`, `matchRules` and `match_file` are modelled from the spec
  (section 4.1): comment/blank lines dropped, leading `!` negation,
  trailing `/` directory-only, `*` `?` `[...]` shell globs, `**` crossing
  segment boundaries, slashless patterns matching the basename at any
  depth, patterns containing `/` anchored at the root, later rules
  overriding earlier ones.
-/

namespace TreeCli

/-- Code-point comparison of character lists: the order Python's `sorted`
uses on strings (`tree.py` line 50 sorts the `os.listdir` result). -/
def charsLe : List Char → List Char → Bool
  | [], _ => true
  | _ :: _, [] => false
  | a :: as, b :: bs =>
    if a.toNat < b.toNat then true
    else if b.toNat < a.toNat then false
    else charsLe as bs

/-- String comparison by code points, as Python's `sorted` orders `str`. -/
def strLe (a b : String) : Bool := charsLe a.data b.data

/-- Model of a filesystem subtree. A directory carries a `readable` flag:
`os.listdir` on it either succeeds (true) or raises `PermissionError`
(false), the failure handled at `tree.py` lines 51-53. -/
inductive Entry where
  | file : Entry
  | dir (readable : Bool) (children : List (String × Entry)) : Entry

/-- `os.path.isdir` on a modelled entry (`tree.py` lines 65 and 83). -/
def isdir : Entry → Bool
  | .file => false
  | .dir _ _ => true

mutual

/-- Size measure of an entry, for termination of the traversal. -/
def esize : Entry → Nat
  | .file => 1
  | .dir _ cs => 1 + esizeL cs

/-- Size measure of a child list. -/
def esizeL : List (String × Entry) → Nat
  | [] => 0
  | (_, e) :: t => 1 + esize e + esizeL t

end

mutual

/-- Number of directory entries strictly inside an entry (each child of
each directory counts once). -/
def entryCount : Entry → Nat
  | .file => 0
  | .dir _ cs => entryCountL cs

/-- Number of entries in and under a child list. -/
def entryCountL : List (String × Entry) → Nat
  | [] => 0
  | (_, e) :: t => 1 + entryCount e + entryCountL t

end

mutual

/-- Every directory in the subtree is readable (no `PermissionError`). -/
def allReadable : Entry → Bool
  | .file => true
  | .dir r cs => r && allReadableL cs

/-- Every directory under a child list is readable. -/
def allReadableL : List (String × Entry) → Bool
  | [] => true
  | (_, e) :: t => allReadable e && allReadableL t

end

/-- Insert one child into a name-sorted child list, keeping it sorted. -/
def insertSorted (x : String × Entry) : List (String × Entry) → List (String × Entry)
  | [] => [x]
  | y :: ys => if strLe x.1 y.1 then x :: y :: ys else y :: insertSorted x ys

/-- Stable insertion sort of a child list by name: the model of
`sorted(os.listdir(dir_path))` at `tree.py` line 50. -/
def sortChildren : List (String × Entry) → List (String × Entry)
  | [] => []
  | x :: xs => insertSorted x (sortChildren xs)

/-- Split a character list at every `'/'` (POSIX separator). -/
def splitOnSlash : List Char → List (List Char)
  | [] => [[]]
  | c :: t =>
    if c = '/' then [] :: splitOnSlash t
    else
      match splitOnSlash t with
      | [] => [[c]]
      | s :: ss => (c :: s) :: ss

/-- All suffixes of a character list, longest first. -/
def suffixes : List Char → List (List Char)
  | [] => [[]]
  | c :: t => (c :: t) :: suffixes t

/-- All suffixes of a segment list, longest first. -/
def suffixesL : List (List Char) → List (List (List Char))
  | [] => [[]]
  | s :: t => (s :: t) :: suffixesL t

/-- One compiled glob token: a literal character, `?`, `*`, or a
bracket character class. -/
inductive GTok where
  | lit (c : Char)
  | anyOne
  | anySeq
  | cls (negated : Bool) (ranges : List (Char × Char))

/-- Modelled from the spec: scan the items of a `[...]` character class up
to the closing bracket; `a-b` is a range, anything else a single
character. Returns `none` when the class is unclosed (the malformed
pattern is then treated literally). -/
def classItems : List Char → Option (List (Char × Char) × List Char)
  | [] => none
  | ']' :: t => some ([], t)
  | a :: '-' :: b :: t =>
    if b = ']' then some ([(a, a), ('-', '-')], t)
    else (fun r => ((a, b) :: r.1, r.2)) <$> classItems t
  | a :: t => (fun r => ((a, a) :: r.1, r.2)) <$> classItems t

/-- Modelled from the spec: parse the body of a `[...]` class after the
opening bracket: optional `!` negation, then a leading `]` taken
literally, then the items. -/
def parseClass (cs : List Char) : Option (Bool × List (Char × Char) × List Char) :=
  match cs with
  | '!' :: ']' :: t => (fun r => (true, (']', ']') :: r.1, r.2)) <$> classItems t
  | '!' :: t => (fun r => (true, r.1, r.2)) <$> classItems t
  | ']' :: t => (fun r => (false, (']', ']') :: r.1, r.2)) <$> classItems t
  | t => (fun r => (false, r.1, r.2)) <$> classItems t

/-- Tokenizer worker with explicit fuel; each step consumes at least one
input character, so fuel equal to the input length always suffices. -/
def tokenizeAux : Nat → List Char → List GTok
  | 0, _ => []
  | _, [] => []
  | fuel + 1, '*' :: t => .anySeq :: tokenizeAux fuel t
  | fuel + 1, '?' :: t => .anyOne :: tokenizeAux fuel t
  | fuel + 1, '[' :: t =>
    match parseClass t with
    | some (neg, rs, rest) => .cls neg rs :: tokenizeAux fuel rest
    | none => .lit '[' :: tokenizeAux fuel t
  | fuel + 1, c :: t => .lit c :: tokenizeAux fuel t

/-- Modelled from the spec: compile one glob pattern segment into tokens.
An unclosed `[` is treated as a literal `[` character. -/
def tokenize (cs : List Char) : List GTok := tokenizeAux cs.length cs

/-- Does character `c` fall in the (possibly negated) class? -/
def clsMatch (negd : Bool) (ranges : List (Char × Char)) (c : Char) : Bool :=
  let hit := ranges.any (fun r => r.1.toNat ≤ c.toNat && c.toNat ≤ r.2.toNat)
  if negd then !hit else hit

/-- Modelled from the spec: shell-glob matching of a token list against one
path segment; `*` matches any run of characters within the segment. -/
def globMatch : List GTok → List Char → Bool
  | [], s => s.isEmpty
  | .lit c :: ps, s =>
    match s with
    | [] => false
    | d :: t => c == d && globMatch ps t
  | .anyOne :: ps, s =>
    match s with
    | [] => false
    | _ :: t => globMatch ps t
  | .anySeq :: ps, s => (suffixes s).any (fun t => globMatch ps t)
  | .cls negd rs :: ps, s =>
    match s with
    | [] => false
    | d :: t => clsMatch negd rs d && globMatch ps t

/-- Modelled from the spec: match a list of pattern segments against a list
of path segments; a `**` pattern segment matches any run of whole path
segments. -/
def matchSegs : List (List Char) → List (List Char) → Bool
  | [], segs => segs.isEmpty
  | p :: ps, segs =>
    if p = ['*', '*'] then (suffixesL segs).any (fun t => matchSegs ps t)
    else
      match segs with
      | [] => false
      | s :: t => globMatch (tokenize p) s && matchSegs ps t

/-- One compiled ignore rule: negation flag (leading `!`), directory-only
flag (trailing `/`), anchoring flag (pattern contains `/`), and the
pattern segments (a single segment when not anchored). -/
structure Rule where
  negated : Bool
  dirOnly : Bool
  anchored : Bool
  pat : List (List Char)

/-- Modelled from the spec: interpret one ignore-file line. Blank lines and
`#` comments yield no rule; a leading `!` negates; a trailing `/`
restricts to directories; a pattern containing `/` is anchored at the
root; a pattern left empty by this stripping (such as `!` or `/`
alone) is unparseable and is skipped. -/
def parseLine (line : String) : Option Rule :=
  match line.data with
  | [] => none
  | '#' :: _ => none
  | cs =>
    let (neg, cs1) := match cs with
      | '!' :: t => (true, t)
      | _ => (false, cs)
    let (dOnly, cs2) := match cs1.getLast? with
      | some '/' => (true, cs1.dropLast)
      | _ => (false, cs1)
    let (anch, cs3) := match cs2 with
      | '/' :: t => (true, t)
      | _ => (cs2.contains '/', cs2)
    if cs3.isEmpty then none
    else some ⟨neg, dOnly, anch, if anch then splitOnSlash cs3 else [cs3]⟩

/-- Modelled from the spec: `PathSpec.from_lines('gitwildmatch', lines)`
(`tree.py` lines 22-23) — compile the lines in order, one rule per
parseable line. -/
def from_lines (lines : List String) : List Rule := lines.filterMap parseLine

/-- `load_treeignore_patterns` (`tree.py` lines 9-23): `contents` is
`some lines` when the `.treeignore` file exists, `none` otherwise;
absence behaves as an empty rule set. -/
def load_treeignore_patterns (contents : Option (List String)) : List Rule :=
  match contents with
  | some lines => from_lines lines
  | none => from_lines []

/-- Split a relative POSIX path into its segments plus a directory flag
read off a trailing `/`. -/
def pathParts (cs : List Char) : List (List Char) × Bool :=
  let parts := splitOnSlash cs
  if parts.getLast? = some [] then (parts.dropLast, true) else (parts, false)

/-- Modelled from the spec: does one rule match the path? Directory-only
rules require a directory; an anchored rule must match the whole
segment list from the root; a slashless rule matches the basename at
any depth. -/
def ruleMatch (r : Rule) (parts : List (List Char)) (isDir : Bool) : Bool :=
  (!r.dirOnly || isDir) &&
    (if r.anchored then matchSegs r.pat parts
     else
       match r.pat, parts.getLast? with
       | [p], some base => globMatch (tokenize p) base
       | _, _ => false)

/-- Modelled from the spec: evaluate the rules in file order; the last rule
that matches determines the outcome (`some true` = excluded,
`some false` = re-included by a negation, `none` = no rule matched). -/
def matchRules (rules : List Rule) (parts : List (List Char)) (isDir : Bool) : Option Bool :=
  rules.foldl (fun acc r => if ruleMatch r parts isDir then some (!r.negated) else acc) none

/-- Modelled from the spec: `PathSpec.match_file` — a path is excluded when
the last matching rule is not negated; with no matching rule it is
kept. -/
def match_file (rules : List Rule) (path : String) : Bool :=
  ((matchRules rules (pathParts path.data).1 (pathParts path.data).2).getD false)

/-- `should_ignore` (`tree.py` lines 25-36). -/
def should_ignore (relativePosixPath : String) (rules : List Rule) : Bool :=
  match_file rules relativePosixPath

/-- Join path segments with `/`: the model of
`Path(os.path.relpath(item_full_path, root_path)).as_posix()`
(`tree.py` lines 58-62) for a child at `segs ++ [name]` below the root. -/
def joinSegs : List String → String
  | [] => ""
  | [s] => s
  | s :: rest => s ++ "/" ++ joinSegs rest

/-- Character-level counterpart of `joinSegs`, joining segment character
lists with `'/'`; used to reason about `joinSegs` and `splitOnSlash`. -/
def joinChars : List (List Char) → List Char
  | [] => []
  | [s] => s
  | s :: rest => s ++ '/' :: joinChars rest

/-- The relative POSIX path presented to the matcher (`tree.py`
lines 58-66): the root-relative path of the child, with a trailing `/`
appended when the child is a directory. -/
def relPosixPath (segs : List String) (name : String) (e : Entry) : String :=
  joinSegs (segs ++ [name]) ++ (if isdir e then "/" else "")

/-- `colorama.Fore.GREEN`. -/
def foreGreen : String := "\x1b[32m"

/-- `colorama.Fore.BLUE`. -/
def foreBlue : String := "\x1b[34m"

/-- `colorama.Style.BRIGHT`. -/
def styleBright : String := "\x1b[1m"

/-- `colorama.Style.RESET_ALL`, appended to every printed line by
`init(autoreset=True)`. -/
def resetAll : String := "\x1b[0m"

theorem esizeL_insertSorted (x : String × Entry) (l : List (String × Entry)) :
    esizeL (insertSorted x l) = 1 + esize x.2 + esizeL l := by
  induction l with
  | nil => simp [insertSorted, esizeL]
  | cons y ys ih =>
    by_cases h : strLe x.1 y.1 = true
    · simp [insertSorted, h, esizeL]
    · simp only [insertSorted, h]
      simp only [Bool.false_eq_true, if_false, esizeL, ih]
      omega

theorem esizeL_sortChildren (l : List (String × Entry)) :
    esizeL (sortChildren l) = esizeL l := by
  induction l with
  | nil => rfl
  | cons x xs ih => simp [sortChildren, esizeL_insertSorted, ih, esizeL]

theorem esizeL_filter_le (p : String × Entry → Bool) (l : List (String × Entry)) :
    esizeL (l.filter p) ≤ esizeL l := by
  induction l with
  | nil => simp
  | cons x xs ih =>
    rcases x with ⟨n, e⟩
    by_cases h : p (n, e) = true
    · simp only [List.filter_cons, h, if_true, esizeL]
      omega
    · simp only [List.filter_cons, h]
      simp only [Bool.false_eq_true, if_false, esizeL]
      omega

mutual

/-- `print_tree` (`tree.py` lines 38-94) run on the modelled filesystem:
returns the printed lines. An unreadable directory prints the single
permission-denied marker; a readable one sorts its children, filters
them through the matcher (directories get a trailing `/` for the
match), and hands the survivors to the enumeration loop. `print_tree`
is never invoked on files (the code recurses only into directories);
that case returns no lines. -/
def print_tree (rules : List Rule) (e : Entry) (pre : String) (segs : List String) :
    List String :=
  match e with
  | .file => []
  | .dir false _ => [pre ++ "└── [Permission Denied]" ++ resetAll]
  | .dir true cs =>
    let filtered :=
      (sortChildren cs).filter (fun c => !(should_ignore (relPosixPath segs c.1 c.2) rules))
    renderItems rules pre segs filtered.length 0 filtered
termination_by esize e
decreasing_by
  simp only [esize]
  have h1 := esizeL_filter_le
    (fun c => !(should_ignore (relPosixPath segs c.1 c.2) rules)) (sortChildren cs)
  have h2 := esizeL_sortChildren cs
  omega

/-- The `for index, item in enumerate(filtered_items)` loop of
`print_tree` (`tree.py` lines 74-94): `total` is the survivor count,
`idx` the index of the head of `l`. The last item uses the `└── `
connector, the others `├── `; directories are printed bold blue with a
trailing `/` and recursed into with the prefix extended by four spaces
(last) or a bar and three spaces (not last). -/
def renderItems (rules : List Rule) (pre : String) (segs : List String)
    (total idx : Nat) (l : List (String × Entry)) : List String :=
  match l with
  | [] => []
  | (name, Entry.file) :: rest =>
    (pre ++ (if idx == total - 1 then "└── " else "├── ") ++ name ++ resetAll)
      :: renderItems rules pre segs total (idx + 1) rest
  | (name, Entry.dir r gcs) :: rest =>
    ((pre ++ (if idx == total - 1 then "└── " else "├── ")
        ++ foreBlue ++ styleBright ++ name ++ "/" ++ resetAll)
      :: print_tree rules (Entry.dir r gcs)
          (pre ++ (if idx == total - 1 then "    " else "│   ")) (segs ++ [name]))
      ++ renderItems rules pre segs total (idx + 1) rest
termination_by esizeL l
decreasing_by
  · simp only [esizeL, esize]; omega
  · simp only [esizeL, esize]; omega
  · simp only [esizeL, esize]; omega

end

/-- `main` (`tree.py` lines 96-115): load the rules (the ignore file's
lines when it exists), print the root display line, then render the
tree from the root with an empty prefix. The second component is the
process exit status: the only modelled failure, `PermissionError` from
`os.listdir`, is always caught inside `print_tree` (lines 51-53) — the
root invocation at line 115 included — so the script always returns
normally and the interpreter exits with status `0`. -/
def mainRun (contents : Option (List String)) (rootName : String) (root : Entry) :
    List String × Nat :=
  let rules := load_treeignore_patterns contents
  ((foreGreen ++ styleBright ++ rootName ++ "/" ++ resetAll)
      :: print_tree rules root "" [], 0)

theorem charsLe_cons_iff (a b : Char) (as bs : List Char) :
    charsLe (a :: as) (b :: bs) = true ↔
      a.toNat < b.toNat ∨ (a.toNat = b.toNat ∧ charsLe as bs = true) := by
  simp only [charsLe]
  by_cases h1 : a.toNat < b.toNat
  · simp [h1]
  · by_cases h2 : b.toNat < a.toNat
    · have h4 : a.toNat ≠ b.toNat := by omega
      simp [h1, h2, h4]
    · have h3 : a.toNat = b.toNat := by omega
      simp [h1, h2, h3]

theorem charsLe_total : ∀ a b : List Char, charsLe a b = true ∨ charsLe b a = true
  | [], _ => Or.inl rfl
  | _ :: _, [] => Or.inr rfl
  | a :: as, b :: bs => by
    rw [charsLe_cons_iff, charsLe_cons_iff]
    rcases Nat.lt_trichotomy a.toNat b.toNat with h | h | h
    · left; left; exact h
    · rcases charsLe_total as bs with h' | h'
      · left; right; exact ⟨h, h'⟩
      · right; right; exact ⟨h.symm, h'⟩
    · right; left; exact h

theorem charsLe_trans : ∀ a b c : List Char,
    charsLe a b = true → charsLe b c = true → charsLe a c = true
  | [], _, _ => fun _ _ => rfl
  | _ :: _, [], _ => fun h _ => by simp [charsLe] at h
  | _ :: _, _ :: _, [] => fun _ h => by simp [charsLe] at h
  | a :: as, b :: bs, c :: cs => by
    rw [charsLe_cons_iff, charsLe_cons_iff, charsLe_cons_iff]
    rintro (h1 | ⟨h1, h1r⟩) (h2 | ⟨h2, h2r⟩)
    · left; omega
    · left; omega
    · left; omega
    · right; exact ⟨by omega, charsLe_trans as bs cs h1r h2r⟩

/-- Ordering of children by name, the order `sorted` establishes. -/
def nameLe (a b : String × Entry) : Prop := strLe a.1 b.1 = true

theorem nameLe_total (a b : String × Entry) : nameLe a b ∨ nameLe b a :=
  charsLe_total a.1.data b.1.data

theorem nameLe_trans {a b c : String × Entry} (h1 : nameLe a b) (h2 : nameLe b c) :
    nameLe a c :=
  charsLe_trans a.1.data b.1.data c.1.data h1 h2

theorem insertSorted_perm (x : String × Entry) (l : List (String × Entry)) :
    (insertSorted x l).Perm (x :: l) := by
  induction l with
  | nil => exact List.Perm.refl _
  | cons y ys ih =>
    by_cases h : strLe x.1 y.1 = true
    · simp [insertSorted, h]
    · simp only [insertSorted, h, Bool.false_eq_true, if_false]
      exact (ih.cons y).trans (List.Perm.swap x y ys)

theorem sortChildren_perm (l : List (String × Entry)) : (sortChildren l).Perm l := by
  induction l with
  | nil => exact List.Perm.refl _
  | cons x xs ih =>
    exact (insertSorted_perm x (sortChildren xs)).trans (ih.cons x)

theorem pairwise_insertSorted {x : String × Entry} {l : List (String × Entry)}
    (h : l.Pairwise nameLe) : (insertSorted x l).Pairwise nameLe := by
  induction l with
  | nil => simp [insertSorted]
  | cons y ys ih =>
    rcases List.pairwise_cons.mp h with ⟨hy, hys⟩
    by_cases hxy : strLe x.1 y.1 = true
    · simp only [insertSorted, hxy, if_true]
      refine List.pairwise_cons.mpr ⟨?_, h⟩
      intro z hz
      rcases List.mem_cons.mp hz with rfl | hz2
      · exact hxy
      · exact nameLe_trans hxy (hy z hz2)
    · simp only [insertSorted, hxy, Bool.false_eq_true, if_false]
      refine List.pairwise_cons.mpr ⟨?_, ih hys⟩
      intro z hz
      rcases List.mem_cons.mp ((insertSorted_perm x ys).mem_iff.mp hz) with hzx | hz3
      · rw [hzx]
        rcases nameLe_total x y with h1 | h1
        · exact absurd h1 hxy
        · exact h1
      · exact hy z hz3

theorem sortChildren_pairwise (l : List (String × Entry)) :
    (sortChildren l).Pairwise nameLe := by
  induction l with
  | nil => simp [sortChildren]
  | cons x xs ih => exact pairwise_insertSorted ih

theorem filter_insertSorted_neg {p : String × Entry → Bool} {x : String × Entry}
    (hx : p x = false) (l : List (String × Entry)) :
    (insertSorted x l).filter p = l.filter p := by
  induction l with
  | nil => simp [insertSorted, hx]
  | cons y ys ih =>
    by_cases h : strLe x.1 y.1 = true
    · simp [insertSorted, h, List.filter_cons, hx]
    · simp only [insertSorted, h, Bool.false_eq_true, if_false, List.filter_cons]
      by_cases hpy : p y = true <;> simp [hpy, ih]

theorem insertSorted_of_forall {x : String × Entry} {l : List (String × Entry)}
    (h : ∀ z ∈ l, nameLe x z) : insertSorted x l = x :: l := by
  cases l with
  | nil => rfl
  | cons y ys =>
    have hxy : strLe x.1 y.1 = true := h y (List.mem_cons_self y ys)
    simp [insertSorted, hxy]

theorem filter_insertSorted_pos {p : String × Entry → Bool} {x : String × Entry}
    {l : List (String × Entry)} (hl : l.Pairwise nameLe) (hx : p x = true) :
    (insertSorted x l).filter p = insertSorted x (l.filter p) := by
  induction l with
  | nil => simp [insertSorted, hx]
  | cons y ys ih =>
    rcases List.pairwise_cons.mp hl with ⟨hy, hys⟩
    by_cases hxy : strLe x.1 y.1 = true
    · by_cases hpy : p y = true
      · simp [insertSorted, hxy, List.filter_cons, hx, hpy]
      · simp only [insertSorted, hxy, if_true, List.filter_cons, hx, if_true, hpy,
          Bool.false_eq_true, if_false]
        rw [insertSorted_of_forall]
        intro z hz
        exact nameLe_trans hxy (hy z (List.mem_of_mem_filter hz))
    · by_cases hpy : p y = true
      · simp only [List.filter_cons, hpy, if_true, insertSorted, hxy,
          Bool.false_eq_true, if_false, ih hys]
      · simp only [insertSorted, hxy, Bool.false_eq_true, if_false, List.filter_cons, hpy,
          ih hys]

theorem filter_sortChildren_middle {p : String × Entry → Bool} {x : String × Entry}
    (hx : p x = false) :
    ∀ l1 l2 : List (String × Entry),
      (sortChildren (l1 ++ x :: l2)).filter p = (sortChildren (l1 ++ l2)).filter p
  | [], l2 => by
    simp only [List.nil_append, sortChildren]
    exact filter_insertSorted_neg hx (sortChildren l2)
  | a :: l1, l2 => by
    simp only [List.cons_append, sortChildren]
    by_cases hpa : p a = true
    · rw [filter_insertSorted_pos (sortChildren_pairwise _) hpa,
        filter_insertSorted_pos (sortChildren_pairwise _) hpa]
      exact congrArg (insertSorted a) (filter_sortChildren_middle hx l1 l2)
    · rw [filter_insertSorted_neg (by simpa using hpa),
        filter_insertSorted_neg (by simpa using hpa)]
      exact filter_sortChildren_middle hx l1 l2

theorem print_tree_file (rules : List Rule) (pre : String) (segs : List String) :
    print_tree rules Entry.file pre segs = [] := by
  simp [print_tree]

theorem print_tree_unreadable (rules : List Rule) (cs : List (String × Entry))
    (pre : String) (segs : List String) :
    print_tree rules (Entry.dir false cs) pre segs
      = [pre ++ "└── [Permission Denied]" ++ resetAll] := by
  simp [print_tree]

theorem print_tree_readable (rules : List Rule) (cs : List (String × Entry))
    (pre : String) (segs : List String) :
    print_tree rules (Entry.dir true cs) pre segs
      = renderItems rules pre segs
          ((sortChildren cs).filter
            (fun c => !(should_ignore (relPosixPath segs c.1 c.2) rules))).length 0
          ((sortChildren cs).filter
            (fun c => !(should_ignore (relPosixPath segs c.1 c.2) rules))) := by
  simp [print_tree]

theorem renderItems_nil (rules : List Rule) (pre : String) (segs : List String)
    (total idx : Nat) :
    renderItems rules pre segs total idx [] = [] := by
  simp [renderItems]

theorem renderItems_cons_file (rules : List Rule) (pre : String) (segs : List String)
    (total idx : Nat) (name : String) (rest : List (String × Entry)) :
    renderItems rules pre segs total idx ((name, Entry.file) :: rest)
      = (pre ++ (if idx == total - 1 then "└── " else "├── ") ++ name ++ resetAll)
        :: renderItems rules pre segs total (idx + 1) rest := by
  simp [renderItems]

theorem renderItems_cons_dir (rules : List Rule) (pre : String) (segs : List String)
    (total idx : Nat) (name : String) (r : Bool) (gcs rest : List (String × Entry)) :
    renderItems rules pre segs total idx ((name, Entry.dir r gcs) :: rest)
      = ((pre ++ (if idx == total - 1 then "└── " else "├── ")
            ++ foreBlue ++ styleBright ++ name ++ "/" ++ resetAll)
          :: print_tree rules (Entry.dir r gcs)
              (pre ++ (if idx == total - 1 then "    " else "│   ")) (segs ++ [name]))
        ++ renderItems rules pre segs total (idx + 1) rest := by
  simp [renderItems]

theorem renderItems_append (rules : List Rule) (pre : String) (segs : List String)
    (total : Nat) (l1 l2 : List (String × Entry)) :
    ∀ idx, renderItems rules pre segs total idx (l1 ++ l2)
      = renderItems rules pre segs total idx l1
        ++ renderItems rules pre segs total (idx + l1.length) l2 := by
  induction l1 with
  | nil => intro idx; simp [renderItems_nil]
  | cons c rest ih =>
    intro idx
    rcases c with ⟨name, e⟩
    have harith : idx + (rest.length + 1) = idx + 1 + rest.length := by omega
    cases e with
    | file =>
      rw [List.cons_append, renderItems_cons_file, renderItems_cons_file, ih (idx + 1),
        List.length_cons, harith, List.cons_append]
    | dir r gcs =>
      rw [List.cons_append, renderItems_cons_dir, renderItems_cons_dir, ih (idx + 1),
        List.length_cons, harith]
      simp

theorem renderItems_eq_flatMap (rules : List Rule) (pre : String) (segs : List String)
    (total : Nat) (l : List (String × Entry)) :
    ∀ idx, renderItems rules pre segs total idx l
      = (List.enumFrom idx l).flatMap (fun q =>
          match q.2.2 with
          | Entry.file =>
            [pre ++ (if q.1 == total - 1 then "└── " else "├── ") ++ q.2.1 ++ resetAll]
          | Entry.dir r gcs =>
            (pre ++ (if q.1 == total - 1 then "└── " else "├── ")
                ++ foreBlue ++ styleBright ++ q.2.1 ++ "/" ++ resetAll)
              :: print_tree rules (Entry.dir r gcs)
                  (pre ++ (if q.1 == total - 1 then "    " else "│   "))
                  (segs ++ [q.2.1])) := by
  induction l with
  | nil => intro idx; simp [renderItems_nil, List.enumFrom]
  | cons c rest ih =>
    intro idx
    rcases c with ⟨name, e⟩
    cases e with
    | file =>
      rw [renderItems_cons_file, ih (idx + 1)]
      rfl
    | dir r gcs =>
      rw [renderItems_cons_dir, ih (idx + 1)]
      rfl

theorem entryCountL_perm {l1 l2 : List (String × Entry)} (h : l1.Perm l2) :
    entryCountL l1 = entryCountL l2 := by
  induction h with
  | nil => rfl
  | cons x h ih => rcases x with ⟨n, e⟩; simp [entryCountL, ih]
  | swap x y l =>
    rcases x with ⟨n1, e1⟩
    rcases y with ⟨n2, e2⟩
    simp [entryCountL]
    omega
  | trans h1 h2 ih1 ih2 => exact ih1.trans ih2

theorem allReadableL_perm {l1 l2 : List (String × Entry)} (h : l1.Perm l2) :
    allReadableL l1 = allReadableL l2 := by
  induction h with
  | nil => rfl
  | cons x h ih => rcases x with ⟨n, e⟩; simp [allReadableL, ih]
  | swap x y l =>
    rcases x with ⟨n1, e1⟩
    rcases y with ⟨n2, e2⟩
    simp [allReadableL, Bool.and_left_comm]
  | trans h1 h2 ih1 ih2 => exact ih1.trans ih2

theorem should_ignore_nil (p : String) : should_ignore p [] = false := rfl

mutual

theorem print_tree_length_noRules : ∀ (e : Entry) (pre : String) (segs : List String),
    allReadable e = true → (print_tree [] e pre segs).length = entryCount e
  | Entry.file, _, _, _ => by simp [print_tree_file, entryCount]
  | Entry.dir false cs, _, _, h => by simp [allReadable] at h
  | Entry.dir true cs, pre, segs, h => by
    have hcs : allReadableL cs = true := by simpa [allReadable] using h
    have hfilter : (sortChildren cs).filter
        (fun c => !(should_ignore (relPosixPath segs c.1 c.2) [])) = sortChildren cs :=
      List.filter_eq_self.mpr (fun a _ => rfl)
    rw [print_tree_readable, hfilter,
      renderItems_length_noRules (sortChildren cs) pre segs _ 0
        (by rw [allReadableL_perm (sortChildren_perm cs)]; exact hcs),
      entryCountL_perm (sortChildren_perm cs)]
    simp [entryCount]
termination_by e _ _ _ => esize e
decreasing_by
  rw [esizeL_sortChildren]
  simp only [esize]
  omega

theorem renderItems_length_noRules : ∀ (l : List (String × Entry)) (pre : String)
    (segs : List String) (total idx : Nat), allReadableL l = true →
    (renderItems [] pre segs total idx l).length = entryCountL l
  | [], _, _, _, _, _ => by simp [renderItems_nil, entryCountL]
  | (name, Entry.file) :: rest, pre, segs, total, idx, h => by
    have h2 : allReadableL rest = true := by
      simp [allReadableL, allReadable] at h
      exact h
    rw [renderItems_cons_file]
    simp only [List.length_cons]
    rw [renderItems_length_noRules rest pre segs total (idx + 1) h2]
    simp [entryCountL, entryCount]
    omega
  | (name, Entry.dir r gcs) :: rest, pre, segs, total, idx, h => by
    have h2 : allReadable (Entry.dir r gcs) = true ∧ allReadableL rest = true := by
      simpa [allReadableL] using h
    rw [renderItems_cons_dir]
    simp only [List.length_append, List.length_cons]
    rw [print_tree_length_noRules (Entry.dir r gcs) _ _ h2.1,
      renderItems_length_noRules rest pre segs total (idx + 1) h2.2]
    simp [entryCountL]
    omega
termination_by l _ _ _ _ _ => esizeL l
decreasing_by
  · simp only [esizeL, esize]; omega
  · simp only [esizeL, esize]; omega
  · simp only [esizeL, esize]; omega

end

theorem prepend_empty_str (s : String) : "" ++ s = s := by cases s; rfl

theorem append_empty_str (s : String) : s ++ "" = s :=
  String.ext (by rw [String.data_append]; exact List.append_nil s.data)

theorem joinSegs_data : ∀ l : List String, (joinSegs l).data = joinChars (l.map String.data)
  | [] => rfl
  | [_] => rfl
  | s :: s2 :: rest => by
    show (s ++ "/" ++ joinSegs (s2 :: rest)).data
      = s.data ++ '/' :: joinChars ((s2 :: rest).map String.data)
    rw [String.data_append, String.data_append, joinSegs_data (s2 :: rest)]
    simp

theorem splitOnSlash_no_slash {s : List Char} (h : '/' ∉ s) : splitOnSlash s = [s] := by
  induction s with
  | nil => rfl
  | cons c t ih =>
    have hc : ¬ c = '/' := fun hc => h (hc ▸ List.mem_cons_self c t)
    have ht : '/' ∉ t := fun m => h (List.mem_cons_of_mem c m)
    simp [splitOnSlash, hc, ih ht]

theorem splitOnSlash_append {s : List Char} (h : '/' ∉ s) (X : List Char) :
    splitOnSlash (s ++ '/' :: X) = s :: splitOnSlash X := by
  induction s with
  | nil => simp [splitOnSlash]
  | cons c t ih =>
    have hc : ¬ c = '/' := fun hc => h (hc ▸ List.mem_cons_self c t)
    have ht : '/' ∉ t := fun m => h (List.mem_cons_of_mem c m)
    simp [splitOnSlash, hc, ih ht]

theorem splitOnSlash_joinChars : ∀ parts : List (List Char), parts ≠ [] →
    (∀ p ∈ parts, '/' ∉ p) → splitOnSlash (joinChars parts) = parts
  | [], h, _ => absurd rfl h
  | [s], _, hp => by
    simp only [joinChars]
    exact splitOnSlash_no_slash (hp s (List.mem_singleton.mpr rfl))
  | s :: s2 :: rest, _, hp => by
    show splitOnSlash (s ++ '/' :: joinChars (s2 :: rest)) = s :: s2 :: rest
    rw [splitOnSlash_append (hp s (List.mem_cons_self s _)),
      splitOnSlash_joinChars (s2 :: rest) (by simp)
        (fun p hp2 => hp p (List.mem_cons_of_mem s hp2))]

theorem pathParts_no_trailing {parts : List (List Char)} (h1 : parts ≠ [])
    (h2 : ∀ p ∈ parts, '/' ∉ p) (h3 : parts.getLast? ≠ some []) :
    pathParts (joinChars parts) = (parts, false) := by
  unfold pathParts
  rw [splitOnSlash_joinChars parts h1 h2]
  simp [h3]

theorem joinChars_ne_nil {parts : List (List Char)} {x : List Char} (hx : x ≠ []) :
    joinChars (parts ++ [x]) ≠ [] := by
  cases parts with
  | nil => simpa [joinChars] using hx
  | cons s rest =>
    cases rest with
    | nil => simp [joinChars]
    | cons s2 r2 => simp [joinChars]

theorem joinChars_getLastQ : ∀ (parts : List (List Char)) (x : List Char), x ≠ [] →
    (joinChars (parts ++ [x])).getLast? = x.getLast?
  | [], x, _ => by simp [joinChars]
  | [s], x, hx => by
    show (s ++ '/' :: joinChars [x]).getLast? = x.getLast?
    simp only [joinChars]
    rw [List.getLast?_append_of_ne_nil _ (by simp),
      show ('/' :: x) = ['/'] ++ x from rfl,
      List.getLast?_append_of_ne_nil _ hx]
  | s :: s2 :: rest, x, hx => by
    show (s ++ '/' :: joinChars ((s2 :: rest) ++ [x])).getLast? = x.getLast?
    have hne : joinChars ((s2 :: rest) ++ [x]) ≠ [] := joinChars_ne_nil hx
    rw [List.getLast?_append_of_ne_nil _ (by simp),
      show ('/' :: joinChars ((s2 :: rest) ++ [x]))
        = ['/'] ++ joinChars ((s2 :: rest) ++ [x]) from rfl,
      List.getLast?_append_of_ne_nil _ hne]
    exact joinChars_getLastQ (s2 :: rest) x hx

theorem data_ne_nil {s : String} (h : s ≠ "") : s.data ≠ [] :=
  fun hd => h (String.ext hd)

theorem mem_suffixes {t s : List Char} : t ∈ suffixes s ↔ t <:+ s := by
  induction s with
  | nil => simp [suffixes]
  | cons c s ih => simp [suffixes, List.suffix_cons_iff, ih]

theorem globMatch_lits : ∀ (cs s : List Char),
    globMatch (cs.map GTok.lit) s = true ↔ s = cs
  | [], s => by cases s <;> simp [globMatch]
  | c :: cs, s => by
    cases s with
    | nil => simp [globMatch]
    | cons d t =>
      simp only [List.map_cons, globMatch, Bool.and_eq_true, beq_iff_eq,
        globMatch_lits cs t, List.cons_eq_cons]
      constructor
      · rintro ⟨h1, h2⟩; exact ⟨h1.symm, h2⟩
      · rintro ⟨h1, h2⟩; exact ⟨h1.symm, h2⟩

theorem globMatch_star_iff (ps : List GTok) (s : List Char) :
    globMatch (GTok.anySeq :: ps) s = true ↔ ∃ t, t <:+ s ∧ globMatch ps t = true := by
  simp [globMatch, List.any_eq_true, mem_suffixes]

theorem globMatch_star_lits (cs s : List Char) :
    globMatch (GTok.anySeq :: cs.map GTok.lit) s = true ↔ cs <:+ s := by
  rw [globMatch_star_iff]
  constructor
  · rintro ⟨t, hts, hg⟩
    rw [(globMatch_lits cs t).mp hg] at hts
    exact hts
  · intro h
    exact ⟨cs, h, (globMatch_lits cs cs).mpr rfl⟩

theorem matchRules_last (parts : List (List Char)) (isDir : Bool)
    (rules : List Rule) :
    matchRules rules parts isDir
      = ((rules.filter (fun r => ruleMatch r parts isDir)).getLast?).map
          (fun r => !r.negated) := by
  induction rules using List.reverseRecOn with
  | nil => rfl
  | append_singleton l r ih =>
    by_cases hr : ruleMatch r parts isDir = true
    · simp [matchRules, List.foldl_append, List.filter_append, hr, List.filter_cons]
    · simpa [matchRules, List.foldl_append, List.filter_append, hr,
        List.filter_cons] using ih

theorem mem_of_getLastQ {α : Type} {l : List α} {a : α} (h : l.getLast? = some a) :
    a ∈ l := by
  rcases List.mem_getLast?_eq_getLast (Option.mem_def.mpr h) with ⟨hne, heq⟩
  rw [heq]
  exact List.getLast_mem hne

theorem relPosixPath_slash_iff (segs : List String) (name : String) (e : Entry)
    (h1 : name ≠ "") (h2 : '/' ∉ name.data) :
    ((relPosixPath segs name e).data.getLast? = some '/') ↔ isdir e = true := by
  cases e with
  | dir r cs =>
    simp only [relPosixPath, isdir, if_true]
    rw [String.data_append, show ("/" : String).data = ['/'] from rfl]
    simp
  | file =>
    simp only [relPosixPath, isdir, Bool.false_eq_true, if_false]
    rw [append_empty_str, joinSegs_data, List.map_append]
    simp only [List.map_cons, List.map_nil]
    rw [joinChars_getLastQ (segs.map String.data) name.data (data_ne_nil h1)]
    cases hc : name.data.getLast? with
    | none => simp
    | some c =>
      have hcm : c ∈ name.data := mem_of_getLastQ hc
      have hcs : ¬ c = '/' := fun hq => h2 (hq ▸ hcm)
      simp [hcs]

theorem ruleMatch_basename (negd dOnly : Bool) (p : List Char)
    (parts : List (List Char)) (base : List Char)
    (hlast : parts.getLast? = some base) (isDir : Bool) :
    ruleMatch ⟨negd, dOnly, false, [p]⟩ parts isDir
      = ((!dOnly || isDir) && globMatch (tokenize p) base) := by
  simp only [ruleMatch]
  rw [hlast]
  simp

theorem log_negation_eval (ds : List String) (b : String)
    (hsuf : ['.', 'l', 'o', 'g'] <:+ b.data)
    (hds : ∀ s ∈ ds, '/' ∉ s.data) (hb : '/' ∉ b.data) :
    should_ignore (joinSegs (ds ++ [b])) (from_lines ["*.log", "!keep.log"])
      = !(b == "keep.log") := by
  have hbne : b.data ≠ [] := by
    rcases hsuf with ⟨t, ht⟩
    intro h0
    rw [h0] at ht
    simp at ht
  have hparts : pathParts (joinSegs (ds ++ [b])).data
      = (List.map String.data ds ++ [b.data], false) := by
    rw [joinSegs_data, List.map_append]
    simp only [List.map_cons, List.map_nil]
    apply pathParts_no_trailing
    · simp
    · intro p hp
      rcases List.mem_append.mp hp with h | h
      · rcases List.mem_map.mp h with ⟨s, hs, rfl⟩
        exact hds s hs
      · rw [List.mem_singleton.mp h]
        exact hb
    · simp only [List.getLast?_concat, ne_eq, Option.some.injEq]
      exact hbne
  have hlast : (List.map String.data ds ++ [b.data]).getLast? = some b.data := by
    simp [List.getLast?_concat]
  have hrules : from_lines ["*.log", "!keep.log"]
      = [⟨false, false, false, [['*', '.', 'l', 'o', 'g']]⟩,
         ⟨true, false, false, [['k', 'e', 'e', 'p', '.', 'l', 'o', 'g']]⟩] := rfl
  have hr1 : ruleMatch ⟨false, false, false, [['*', '.', 'l', 'o', 'g']]⟩
      (List.map String.data ds ++ [b.data]) false = true := by
    rw [ruleMatch_basename false false _ _ _ hlast false,
      show tokenize ['*', '.', 'l', 'o', 'g']
        = GTok.anySeq :: (['.', 'l', 'o', 'g'].map GTok.lit) from rfl,
      (globMatch_star_lits ['.', 'l', 'o', 'g'] b.data).mpr hsuf]
    rfl
  rw [show should_ignore (joinSegs (ds ++ [b])) (from_lines ["*.log", "!keep.log"])
      = (matchRules (from_lines ["*.log", "!keep.log"])
          (pathParts (joinSegs (ds ++ [b])).data).1
          (pathParts (joinSegs (ds ++ [b])).data).2).getD false from rfl,
    hparts, hrules]
  by_cases hk : b = "keep.log"
  · have hr2 : ruleMatch ⟨true, false, false, [['k', 'e', 'e', 'p', '.', 'l', 'o', 'g']]⟩
        (List.map String.data ds ++ [b.data]) false = true := by
      rw [ruleMatch_basename true false _ _ _ hlast false,
        show tokenize ['k', 'e', 'e', 'p', '.', 'l', 'o', 'g']
          = (['k', 'e', 'e', 'p', '.', 'l', 'o', 'g'].map GTok.lit) from rfl,
      (globMatch_lits ['k', 'e', 'e', 'p', '.', 'l', 'o', 'g'] b.data).mpr
        (by rw [hk])]
      rfl
    have hbeq : (b == "keep.log") = true := by
      rw [hk]
      exact beq_self_eq_true _
    simp [matchRules, hr2, hbeq]
  · have hg2 : globMatch (tokenize ['k', 'e', 'e', 'p', '.', 'l', 'o', 'g']) b.data
        = false := by
      rw [show tokenize ['k', 'e', 'e', 'p', '.', 'l', 'o', 'g']
          = (['k', 'e', 'e', 'p', '.', 'l', 'o', 'g'].map GTok.lit) from rfl]
      cases hgm : globMatch ((['k', 'e', 'e', 'p', '.', 'l', 'o', 'g']).map GTok.lit) b.data
      · rfl
      · exact absurd (String.ext ((globMatch_lits _ _).mp hgm)) hk
    have hr2 : ruleMatch ⟨true, false, false, [['k', 'e', 'e', 'p', '.', 'l', 'o', 'g']]⟩
        (List.map String.data ds ++ [b.data]) false = false := by
      rw [ruleMatch_basename true false _ _ _ hlast false, hg2]
      simp
    have hbeq : (b == "keep.log") = false := beq_eq_false_iff_ne.mpr hk
    simp [matchRules, hr1, hr2, hbeq]

/-- Claim C1: for the compiled matcher, rules are evaluated in file order
and the last rule that matches a path determines the outcome; in
particular, for the rule list `["*.log", "!keep.log"]`, every file path
whose basename ends in `.log` is excluded except a file named
`keep.log`, which is not excluded. (The matcher is modelled from the
spec, since the `pathspec` library is not part of this repository.) -/
theorem c1_last_rule_wins_log_negation :
    (∀ (rules : List Rule) (parts : List (List Char)) (isDir : Bool),
      matchRules rules parts isDir
        = ((rules.filter (fun r => ruleMatch r parts isDir)).getLast?).map
            (fun r => !r.negated))
    ∧ ∀ (ds : List String) (b : String),
        ['.', 'l', 'o', 'g'] <:+ b.data →
        (∀ s ∈ ds, '/' ∉ s.data) → '/' ∉ b.data →
        should_ignore (joinSegs (ds ++ [b])) (from_lines ["*.log", "!keep.log"])
          = !(b == "keep.log") :=
  ⟨fun rules parts isDir => matchRules_last parts isDir rules, log_negation_eval⟩

/-- Witness for C1 at a concrete input: the file `d/a.log` satisfies the
hypotheses and is excluded, while `keep.log` itself is not. -/
theorem c1_last_rule_wins_log_negation_witness :
    (['.', 'l', 'o', 'g'] <:+ ("a.log" : String).data)
    ∧ (∀ s ∈ (["d"] : List String), '/' ∉ s.data)
    ∧ '/' ∉ ("a.log" : String).data
    ∧ should_ignore (joinSegs (["d"] ++ ["a.log"])) (from_lines ["*.log", "!keep.log"])
        = !(("a.log" : String) == "keep.log") :=
  ⟨⟨['a'], rfl⟩, by decide, by decide,
    c1_last_rule_wins_log_negation.2 ["d"] "a.log" ⟨['a'], rfl⟩
      (by decide) (by decide)⟩

/-- Counterexample to claim C2 as stated: when listing the traversal root
itself fails with `PermissionError` (an unreadable root directory), the
error does not propagate — `print_tree` catches it (`tree.py` lines
51-53, reached from the root call at line 115), prints the
permission-denied marker under the root line, and the script completes
normally with exit status 0, not a non-zero status. -/
theorem c2_root_denied_exit_zero_cex :
    mainRun none "r" (Entry.dir false [])
      = ([foreGreen ++ styleBright ++ "r/" ++ resetAll,
          "└── [Permission Denied]" ++ resetAll], 0) := by
  rw [show mainRun none "r" (Entry.dir false [])
      = ((foreGreen ++ styleBright ++ "r/" ++ resetAll)
          :: print_tree (load_treeignore_patterns none) (Entry.dir false []) "" [], 0)
    from rfl, print_tree_unreadable, prepend_empty_str]

/-- Claim C2 (amended): if listing the traversal root fails with access
denied, the failure is handled like any subdirectory failure — the
program prints the single permission-denied marker under the root line
and completes normally — and the exit status is 0 for every run, root
failure included. -/
theorem c2_root_denied_recovers (contents : Option (List String)) (rootName : String) :
    (∀ cs : List (String × Entry),
      mainRun contents rootName (Entry.dir false cs)
        = ([foreGreen ++ styleBright ++ rootName ++ "/" ++ resetAll,
            "└── [Permission Denied]" ++ resetAll], 0))
    ∧ ∀ root : Entry, (mainRun contents rootName root).2 = 0 := by
  constructor
  · intro cs
    rw [show mainRun contents rootName (Entry.dir false cs)
        = ((foreGreen ++ styleBright ++ rootName ++ "/" ++ resetAll)
            :: print_tree (load_treeignore_patterns contents)
                (Entry.dir false cs) "" [], 0)
      from rfl, print_tree_unreadable, prepend_empty_str]
  · intro root
    rfl

/-- Claim C3: compiling any sequence of ignore-file lines is total and
line-by-line — each line contributes its parsed rule (or is skipped as
blank, comment, or unparseable) and the remaining lines are always
compiled; each line yields at most one rule. (Matcher modelled from
the spec; the modelled policy skips unparseable null patterns.) -/
theorem c3_compile_total_line_by_line :
    (∀ (l : String) (ls : List String),
      from_lines (l :: ls) = (parseLine l).toList ++ from_lines ls)
    ∧ ∀ lines : List String, (from_lines lines).length ≤ lines.length := by
  constructor
  · intro l ls
    rw [from_lines, List.filterMap_cons]
    cases parseLine l <;> simp [from_lines]
  · intro lines
    exact List.length_filterMap_le _ _

/-- Claim C4: a directory child whose root-relative POSIX path (with
trailing slash) is excluded by the matcher is discarded entirely: the
rendered output is identical to the output for the same directory with
that child (and its whole subtree) removed, so no line is printed for
it and no descendant of it ever appears. -/
theorem c4_excluded_dir_pruned (rules : List Rule) (pre : String) (segs : List String)
    (l1 l2 : List (String × Entry)) (name : String) (e : Entry)
    (hdir : isdir e = true)
    (hex : should_ignore (relPosixPath segs name e) rules = true) :
    print_tree rules (Entry.dir true (l1 ++ (name, e) :: l2)) pre segs
      = print_tree rules (Entry.dir true (l1 ++ l2)) pre segs := by
  rw [print_tree_readable, print_tree_readable,
    filter_sortChildren_middle (x := (name, e)) (by simp [hex]) l1 l2]

/-- Witness for C4 at a concrete input: with rule `b/`, the directory `b`
next to the file `a` is pruned and the output equals that of the tree
without `b`. -/
theorem c4_excluded_dir_pruned_witness :
    isdir (Entry.dir true []) = true
    ∧ should_ignore (relPosixPath [] "b" (Entry.dir true []))
        (from_lines ["b/"]) = true
    ∧ print_tree (from_lines ["b/"])
        (Entry.dir true ([("a", Entry.file)] ++ ("b", Entry.dir true []) :: [])) "" []
      = print_tree (from_lines ["b/"]) (Entry.dir true ([("a", Entry.file)] ++ [])) "" [] :=
  ⟨rfl, by decide,
    c4_excluded_dir_pruned (from_lines ["b/"]) "" [] [("a", Entry.file)] []
      "b" (Entry.dir true []) rfl (by decide)⟩

/-- Claim C5: rendering with an empty rule set prints every entry of the
tree exactly once (the output has exactly one line per entry, given
every directory is readable), and the children of each directory are
processed as a sorted permutation of the directory's child list —
sorted lexicographically by code point, each child occurring exactly
once. -/
theorem c5_no_rules_sorted_exactly_once (cs : List (String × Entry)) (pre : String)
    (segs : List String) (h : allReadable (Entry.dir true cs) = true) :
    (print_tree (from_lines []) (Entry.dir true cs) pre segs).length
        = entryCount (Entry.dir true cs)
    ∧ print_tree (from_lines []) (Entry.dir true cs) pre segs
        = renderItems (from_lines []) pre segs (sortChildren cs).length 0 (sortChildren cs)
    ∧ (sortChildren cs).Perm cs
    ∧ (sortChildren cs).Pairwise nameLe := by
  have hfl : from_lines [] = [] := rfl
  refine ⟨?_, ?_, sortChildren_perm cs, sortChildren_pairwise cs⟩
  · rw [hfl]
    exact print_tree_length_noRules (Entry.dir true cs) pre segs h
  · rw [hfl, print_tree_readable]
    have hfilter : (sortChildren cs).filter
        (fun c => !(should_ignore (relPosixPath segs c.1 c.2) [])) = sortChildren cs :=
      List.filter_eq_self.mpr (fun a _ => rfl)
    rw [hfilter]

/-- Witness for C5 at a concrete input: a readable directory with a file
and an empty subdirectory. -/
theorem c5_no_rules_sorted_exactly_once_witness :
    allReadable (Entry.dir true [("b", Entry.file), ("a", Entry.dir true [])]) = true
    ∧ (print_tree (from_lines [])
          (Entry.dir true [("b", Entry.file), ("a", Entry.dir true [])]) "" []).length
        = entryCount (Entry.dir true [("b", Entry.file), ("a", Entry.dir true [])])
    ∧ (sortChildren [("b", Entry.file), ("a", Entry.dir true [])]).Perm
        [("b", Entry.file), ("a", Entry.dir true [])] := by
  have h := c5_no_rules_sorted_exactly_once
    [("b", Entry.file), ("a", Entry.dir true [])] "" [] (by decide)
  exact ⟨by decide, h.1, h.2.2.1⟩

/-- Claim C6: at every nesting depth, the connector of each surviving child
is determined by its position among the survivors — the item printed at
index `k` of the survivor enumeration uses `└── ` exactly when it is
the last one (`k = total - 1`) and `├── ` otherwise; the renderer
invokes the enumeration with `total` equal to the survivor count. -/
theorem c6_connector_by_position :
    (∀ (rules : List Rule) (pre : String) (segs : List String) (total : Nat)
        (l : List (String × Entry)) (idx : Nat),
      renderItems rules pre segs total idx l
        = (List.enumFrom idx l).flatMap (fun q =>
            match q.2.2 with
            | Entry.file =>
              [pre ++ (if q.1 == total - 1 then "└── " else "├── ") ++ q.2.1 ++ resetAll]
            | Entry.dir r gcs =>
              (pre ++ (if q.1 == total - 1 then "└── " else "├── ")
                  ++ foreBlue ++ styleBright ++ q.2.1 ++ "/" ++ resetAll)
                :: print_tree rules (Entry.dir r gcs)
                    (pre ++ (if q.1 == total - 1 then "    " else "│   "))
                    (segs ++ [q.2.1])))
    ∧ ∀ (rules : List Rule) (pre : String) (segs : List String)
        (cs : List (String × Entry)),
      print_tree rules (Entry.dir true cs) pre segs
        = renderItems rules pre segs
            ((sortChildren cs).filter
              (fun c => !(should_ignore (relPosixPath segs c.1 c.2) rules))).length 0
            ((sortChildren cs).filter
              (fun c => !(should_ignore (relPosixPath segs c.1 c.2) rules))) :=
  ⟨fun rules pre segs total l idx => renderItems_eq_flatMap rules pre segs total l idx,
   fun rules pre segs cs => print_tree_readable rules cs pre segs⟩

/-- Claim C7: when the renderer recurses into a surviving directory child,
the prefix passed to the recursive call is the current prefix extended
by four spaces if that child was the last surviving item, and by a
vertical bar plus three spaces otherwise. -/
theorem c7_recursion_extends_indent (rules : List Rule) (pre : String)
    (segs : List String) (total idx : Nat) (name : String) (r : Bool)
    (gcs rest : List (String × Entry)) :
    renderItems rules pre segs total idx ((name, Entry.dir r gcs) :: rest)
      = ((pre ++ (if idx == total - 1 then "└── " else "├── ")
            ++ foreBlue ++ styleBright ++ name ++ "/" ++ resetAll)
          :: print_tree rules (Entry.dir r gcs)
              (pre ++ (if idx == total - 1 then "    " else "│   ")) (segs ++ [name]))
        ++ renderItems rules pre segs total (idx + 1) rest :=
  renderItems_cons_dir rules pre segs total idx name r gcs rest

/-- Claim C8: every path the renderer presents to the matcher is the
child's root-relative POSIX path built from the traversal segments
(`relPosixPath`, which is exactly what the filtering step passes to
`should_ignore`), and — for any child whose name is nonempty and
slash-free, as filesystem names are — that path ends in `'/'` if and
only if the child is a directory. -/
theorem c8_matcher_path_trailing_slash (segs : List String) (name : String) (e : Entry)
    (h1 : name ≠ "") (h2 : '/' ∉ name.data) :
    (((relPosixPath segs name e).data.getLast? = some '/') ↔ isdir e = true)
    ∧ ∀ (rules : List Rule) (pre : String) (cs : List (String × Entry)),
      print_tree rules (Entry.dir true cs) pre segs
        = renderItems rules pre segs
            ((sortChildren cs).filter
              (fun c => !(should_ignore (relPosixPath segs c.1 c.2) rules))).length 0
            ((sortChildren cs).filter
              (fun c => !(should_ignore (relPosixPath segs c.1 c.2) rules))) :=
  ⟨relPosixPath_slash_iff segs name e h1 h2,
   fun rules pre cs => print_tree_readable rules cs pre segs⟩

/-- Witness for C8 at concrete inputs: the file `d/a` yields a path with no
trailing slash. -/
theorem c8_matcher_path_trailing_slash_witness :
    ("a" : String) ≠ ""
    ∧ '/' ∉ ("a" : String).data
    ∧ ¬ ((relPosixPath ["d"] "a" Entry.file).data.getLast? = some '/') := by
  have h := (c8_matcher_path_trailing_slash ["d"] "a" Entry.file
    (by decide) (by decide)).1
  refine ⟨by decide, by decide, fun hq => ?_⟩
  have := h.mp hq
  simp [isdir] at this

/-- Claim C9: a failed subdirectory listing is recovered locally: an
unreadable directory produces exactly the one permission-denied marker
line under the current prefix and nothing else; the enumeration output
for a sibling list splits at any point into the output before and the
output after (so siblings already printed and yet to print are
unaffected); and an unreadable directory child contributes exactly its
own header line plus the marker under the extended prefix before the
loop continues with the remaining siblings. -/
theorem c9_permission_denied_is_local :
    (∀ (rules : List Rule) (cs : List (String × Entry)) (pre : String)
        (segs : List String),
      print_tree rules (Entry.dir false cs) pre segs
        = [pre ++ "└── [Permission Denied]" ++ resetAll])
    ∧ (∀ (rules : List Rule) (pre : String) (segs : List String) (total : Nat)
        (l1 l2 : List (String × Entry)) (idx : Nat),
      renderItems rules pre segs total idx (l1 ++ l2)
        = renderItems rules pre segs total idx l1
          ++ renderItems rules pre segs total (idx + l1.length) l2)
    ∧ ∀ (rules : List Rule) (pre : String) (segs : List String) (total idx : Nat)
        (name : String) (cs rest : List (String × Entry)),
      renderItems rules pre segs total idx ((name, Entry.dir false cs) :: rest)
        = (pre ++ (if idx == total - 1 then "└── " else "├── ")
              ++ foreBlue ++ styleBright ++ name ++ "/" ++ resetAll)
          :: ((pre ++ (if idx == total - 1 then "    " else "│   "))
              ++ "└── [Permission Denied]" ++ resetAll)
          :: renderItems rules pre segs total (idx + 1) rest := by
  refine ⟨fun rules cs pre segs => print_tree_unreadable rules cs pre segs,
    fun rules pre segs total l1 l2 idx => renderItems_append rules pre segs total l1 l2 idx,
    fun rules pre segs total idx name cs rest => ?_⟩
  rw [renderItems_cons_dir, print_tree_unreadable]
  rfl

/-- Claim C10: the traversal root is never tested against the ignore rules
— `main` always prints the root display line first, whatever the rule
set, and the rest of the output is the renderer started on the root's
children with the empty relative path; in particular the root line is
printed even when the rules (for example the root's own name) match. -/
theorem c10_root_never_matched (contents : Option (List String)) (rootName : String)
    (root : Entry) :
    (mainRun contents rootName root).1.head?
        = some (foreGreen ++ styleBright ++ rootName ++ "/" ++ resetAll)
    ∧ (mainRun contents rootName root).1.tail
        = print_tree (load_treeignore_patterns contents) root "" [] :=
  ⟨rfl, rfl⟩

end TreeCli
